import Mathlib

/-!
Shallow embedding of the `virtual-fs` Rust crate and proofs about it.

Paths are modelled as `List Char` (wrapped in `String` at the API surface),
with both `/` and `\` treated as separators, matching `std::path` on the
platform the crate's test-suite targets.  Drive-prefix components (`C:\`,
UNC paths) are outside the model.  Machine integers (`usize`, `u64`) are
modelled as `Nat`: all reachable buffer lengths and cursor positions are far
below `2^64`, so wrapping and saturation never fire on reachable states.
-/

deriving instance DecidableEq for Except

namespace VirtualFs

/-- Error kinds used by the crate: the subset of `std::io::ErrorKind`
produced by `error.rs` / `util.rs` and the archive error mapping. -/
inductive ErrorKind where
  | notFound
  | alreadyExists
  | invalidInput
  | permissionDenied
  | invalidData
  | unsupported
  deriving DecidableEq, Repr

/-- The file type (`file.rs`, `enum FileType`). -/
inductive FileType where
  | directory
  | file
  | unknown
  deriving DecidableEq, Repr

/-- Metadata about a file (`file.rs`, `struct Metadata`). -/
structure Metadata where
  file_type : FileType
  len : Nat
  deriving DecidableEq, Repr

/-- `Metadata::directory()` (`file.rs`). -/
def Metadata.directory : Metadata := ⟨.directory, 0⟩

/-- `Metadata::file(len)` (`file.rs`). -/
def Metadata.file (len : Nat) : Metadata := ⟨.file, len⟩

/-- A directory entry (`file.rs`, `struct DirEntry`): the `path` field holds
the leaf name only. -/
structure DirEntry where
  path : String
  metadata : Metadata
  deriving DecidableEq, Repr

/-- Options for opening a file (`file.rs`, `struct OpenOptions`). -/
structure OpenOptions where
  append : Bool
  create : Bool
  read : Bool
  truncate : Bool
  write : Bool
  deriving DecidableEq, Repr

/-- `impl Default for OpenOptions` (`file.rs`). -/
def OpenOptions.default : OpenOptions :=
  { append := false, create := false, read := true, truncate := false, write := false }

/-- `OpenOptions::append` (`file.rs`): `if append { write = true }; append = append; truncate = !append`. -/
def OpenOptions.setAppend (o : OpenOptions) (b : Bool) : OpenOptions :=
  { o with write := if b then true else o.write, append := b, truncate := !b }

/-- `OpenOptions::create` (`file.rs`): `if create { write = true }; create = true`.
Note the source assigns the literal `true` to the `create` field, not the argument. -/
def OpenOptions.setCreate (o : OpenOptions) (b : Bool) : OpenOptions :=
  { o with write := if b then true else o.write, create := true }

/-- `OpenOptions::read` (`file.rs`). -/
def OpenOptions.setRead (o : OpenOptions) (b : Bool) : OpenOptions :=
  { o with read := b }

/-- `OpenOptions::truncate` (`file.rs`): `if truncate { write = true }; append = !truncate; truncate = truncate`. -/
def OpenOptions.setTruncate (o : OpenOptions) (b : Bool) : OpenOptions :=
  { o with write := if b then true else o.write, append := !b, truncate := b }

/-- `OpenOptions::write` (`file.rs`). -/
def OpenOptions.setWrite (o : OpenOptions) (b : Bool) : OpenOptions :=
  { o with write := b }

/-- The options `FileSystem::create_file` passes to `open_file_options`
(`lib.rs`): `OpenOptions::default().create(true).truncate(true)`. -/
def createFileOptions : OpenOptions :=
  (OpenOptions.default.setCreate true).setTruncate true

/-! ## Path utilities (`util.rs` and `std::path` behaviour they rely on) -/

/-- Separator characters: the crate's paths use both `/` and `\`. -/
def isSep (c : Char) : Bool := c = '/' || c = '\\'

/-- `util::make_relative`: `trim_start_matches('/')` then `trim_start_matches('\\')`. -/
def make_relative (s : List Char) : List Char :=
  (s.dropWhile (· = '/')).dropWhile (· = '\\')

/-- Splits a character list at separators, keeping empty pieces
(so `"a//b"` yields `["a", "", "b"]` and a leading separator yields a
leading empty piece). -/
def splitSeps : List Char → List (List Char)
  | [] => [[]]
  | c :: rest =>
    match splitSeps rest with
    | [] => [[]]
    | p :: ps => if isSep c then [] :: p :: ps else (c :: p) :: ps

/-- One path component, mirroring `std::path::Component` without the
drive-prefix constructor. -/
inductive Comp where
  | rootDir
  | curDir
  | parentDir
  | normal (name : List Char)
  deriving DecidableEq, Repr

/-- Classification of a non-leading piece: empty pieces and `.` are
normalised away by `Path::components()`. -/
def tailComp (p : List Char) : Option Comp :=
  if p = [] then none
  else if p = ['.'] then none
  else if p = ['.', '.'] then some .parentDir
  else some (.normal p)

/-- Classification of the leading piece: a `.` at the very front of a
relative path survives as `CurDir`. -/
def headComp (p : List Char) : List Comp :=
  if p = [] then []
  else if p = ['.'] then [.curDir]
  else if p = ['.', '.'] then [.parentDir]
  else [.normal p]

/-- `Path::components()`: a leading separator yields `RootDir`, interior
`.` and empty pieces collapse. -/
def components (s : List Char) : List Comp :=
  match splitSeps s with
  | [] => []
  | p :: ps =>
    if s = [] then []
    else if p = [] then .rootDir :: ps.filterMap tailComp
    else headComp p ++ ps.filterMap tailComp

/-- State of the `normalize-path` crate's fold: a root flag plus the stack
of normal components pushed so far. -/
structure NormState where
  abs : Bool
  names : List (List Char)
  deriving DecidableEq, Repr

/-- One step of `normalize-path`'s `normalize()`: `.` is dropped, `..` pops
the last pushed component (`PathBuf::pop` keeps the bare root and the empty
path unchanged), normal components push. -/
def normStep (st : NormState) : Comp → NormState
  | .rootDir => { st with abs := true }
  | .curDir => st
  | .parentDir => { st with names := st.names.dropLast }
  | .normal n => { st with names := st.names ++ [n] }

/-- Joins components with `/` separators (how `PathBuf` renders a relative
path of normal components). -/
def joinSlash : List (List Char) → List Char
  | [] => []
  | [n] => n
  | n :: rest => n ++ '/' :: joinSlash rest

/-- Renders a root flag plus components with `/` separators (the
`to_slash` step of `util::normalize_path`). -/
def render (abs : Bool) (names : List (List Char)) : List Char :=
  if abs then '/' :: joinSlash names
  else joinSlash names

/-- The state of the `normalize()` fold over a path's components. -/
def normState (s : List Char) : NormState :=
  (components s).foldl normStep ⟨false, []⟩

/-- The normal components a path retains after the `normalize()` fold. -/
def normNames (s : List Char) : List (List Char) :=
  (normState s).names

/-- `util::normalize_path`: the `normalize()` fold followed by slash
rendering. -/
def normalize_path (s : List Char) : List Char :=
  render (normState s).abs (normState s).names

/-- A component name as produced by the crate's path parsing: nonempty,
not `.` or `..`, and free of separators. -/
def GoodName (n : List Char) : Prop :=
  n ≠ [] ∧ n ≠ ['.'] ∧ n ≠ ['.', '.'] ∧ ∀ c ∈ n, isSep c = false

instance (n : List Char) : Decidable (GoodName n) := by
  unfold GoodName
  infer_instance

/-- `tree::normalize_and_relativize`: `normalize_path(make_relative(p))`. -/
def normalize_and_relativize (s : List Char) : List Char :=
  normalize_path (make_relative s)

/-- `util::component_iter`: the `Normal` components, left to right. -/
def component_iter (s : List Char) : List (List Char) :=
  (components s).filterMap (fun c => match c with | .normal n => some n | _ => none)

/-- Drops trailing separator characters. -/
def dropTrailSeps (s : List Char) : List Char :=
  (s.reverse.dropWhile isSep).reverse

/-- The maximal run of non-separator characters at the end. -/
def lastPiece (s : List Char) : List Char :=
  (s.reverse.takeWhile (fun c => !isSep c)).reverse

/-- Whether the first character is a separator. -/
def headIsSep : List Char → Bool
  | [] => false
  | c :: _ => isSep c

/-- Removes the final component from the end of a path, also consuming the
vacuous `.` pieces in front of it, mimicking how `Path::parent` pops one
`Component`.  Each recursive step removes at least one character, so fuel
equal to the length suffices. -/
def chopFuel : Nat → List Char → List Char
  | 0, _ => []
  | fuel + 1, s =>
    let t := dropTrailSeps s
    let piece := lastPiece t
    let r := t.take (t.length - piece.length)
    if piece = ['.'] ∧ r ≠ [] then chopFuel fuel r
    else r

/-- Removes the final component (with its trailing separators) from a path. -/
def chopLastComp (s : List Char) : List Char := chopFuel s.length s

/-- `Path::parent`, as a slice of the original characters: `None` for the
empty path and for a bare root, otherwise the path with its final component
removed (a bare root slice survives for absolute paths). -/
def parentPath (s : List Char) : Option (List Char) :=
  if components s = [] ∨ components s = [Comp.rootDir] then none
  else
    let r := dropTrailSeps (chopLastComp s)
    some (if r = [] ∧ headIsSep s then s.takeWhile isSep else r)

/-- `Path::file_name`: the final component when it is `Normal`. -/
def fileName (s : List Char) : Option (List Char) :=
  match (components s).getLast? with
  | some (.normal n) => some n
  | _ => none

/-- `Path::ancestors`: the path followed by the chain of its parents.
`parentPath` strictly shortens its argument, so fuel equal to the length
suffices. -/
def ancestorsFuel : Nat → List Char → List (List Char)
  | 0, s => [s]
  | fuel + 1, s =>
    s :: (match parentPath s with
          | some q => ancestorsFuel fuel q
          | none => [])

/-- `Path::ancestors` on the crate's paths. -/
def ancestors (s : List Char) : List (List Char) := ancestorsFuel s.length s

/-- `util::parent_iter`: `ancestors()`, empty paths filtered out, then the
first element (the path itself) skipped — in this order, as in the source. -/
def parent_iter (s : List Char) : List (List Char) :=
  ((ancestors s).filter (fun a => a ≠ [])).drop 1

/-- The sequence of paths `util::create_dir_all` passes to `create_dir`:
`parent_iter(normalized)` (nearest parent first — the source does not
reverse it) chained with the normalized path itself. -/
def create_dir_all_paths (p : List Char) : List (List Char) :=
  let n := normalize_and_relativize p
  parent_iter n ++ [n]

/-! String-level wrappers. -/

/-- `make_relative` on `String`. -/
def make_relativeS (s : String) : String := ⟨make_relative s.data⟩

/-- `normalize_path` on `String`. -/
def normalize_pathS (s : String) : String := ⟨normalize_path s.data⟩

/-- `normalize_and_relativize` on `String`. -/
def normalize_and_relativizeS (s : String) : String := ⟨normalize_and_relativize s.data⟩

/-! Sanity checks against the doc-tests and unit tests of `util.rs`. -/

example : normalize_pathS "///////" = "/" := by decide
example : normalize_pathS "./test/something/../" = "test" := by decide
example : normalize_pathS "../test" = "test" := by decide

example :
    component_iter "../many/files/and/directories/".data =
      ["many".data, "files".data, "and".data, "directories".data] := by decide

example :
    parent_iter "/many/files/and/directories".data =
      ["/many/files/and".data, "/many/files".data, "/many".data, "/".data] := by decide

example :
    parent_iter "../many/files/and/directories".data =
      ["../many/files/and".data, "../many/files".data, "../many".data, "..".data] := by decide

example : parentPath "folder/a".data = some "folder".data := by decide
example : parentPath "folder".data = some [] := by decide
example : parentPath "/".data = none := by decide
example : parentPath "".data = none := by decide
example : parentPath ".".data = some [] := by decide
example : parentPath "a/..".data = some "a".data := by decide
example : parentPath "a/./.".data = some [] := by decide
example : fileName "a/b".data = some "b".data := by decide
example : fileName "a/..".data = none := by decide
example : fileName "a/.".data = some "a".data := by decide
example : fileName "/".data = none := by decide

/-! ## The memory-backend file handle (`memory_fs/file.rs`) -/

/-- The state of a `memory_fs::file::FileHandle` together with the byte
buffer it has locked: contents, cursor, and the mode flags
(`FileMode::from_options` copies `read` and `write` from the options). -/
structure FileHandleSt where
  contents : List UInt8
  pos : Nat
  readMode : Bool
  writeMode : Bool
  deriving DecidableEq, Repr

/-- `impl Write for FileHandle::write`: fails `Unsupported` without write
mode; otherwise clamps the start to `min(pos, len)`, zero-extends to
`pos + buf.len()` if needed, overwrites with `buf`, and returns the byte
count `needed_len - pos = buf.len()`.  As in the source, `pos` is not
modified.  (The zero-extension is entirely overwritten, so the net contents
are a take/append/drop; `saturating_add` cannot saturate at reachable
lengths.) -/
def fh_write (h : FileHandleSt) (buf : List UInt8) :
    Except ErrorKind (FileHandleSt × Nat) :=
  if !h.writeMode then .error .unsupported
  else
    let pos := min h.pos h.contents.length
    .ok ({ h with
            contents := h.contents.take pos ++ buf ++ h.contents.drop (pos + buf.length) },
         buf.length)

/-- `impl Read for FileHandle::read` with a destination buffer of length
`bufLen`: fails `Unsupported` without read mode; otherwise copies up to
`bufLen` bytes starting at `min(pos, len)` and advances `pos` by the count. -/
def fh_read (h : FileHandleSt) (bufLen : Nat) :
    Except ErrorKind (FileHandleSt × List UInt8) :=
  if !h.readMode then .error .unsupported
  else
    let start := min h.pos h.contents.length
    let out := (h.contents.drop start).take bufLen
    .ok ({ h with pos := h.pos + out.length }, out)

/-- `Read::read_to_end` (used by `File::read_into_vec`): repeated `read`
calls until one returns `0`; the net effect is to yield everything from
`min(pos, len)` on and move the cursor past the end of those bytes. -/
def fh_read_to_end (h : FileHandleSt) :
    Except ErrorKind (FileHandleSt × List UInt8) :=
  if !h.readMode then .error .unsupported
  else
    let start := min h.pos h.contents.length
    let out := h.contents.drop start
    .ok ({ h with pos := h.pos + out.length }, out)

/-! ## The filesystem tree (`tree.rs`) instantiated at the memory backend -/

/-- A node of the generic `FilesystemTree` (`tree.rs`, `enum Entry<T>`) at
the memory backend's instantiation: `Entry::Directory(HashMap<..>)` is
`.dir` over an association list without duplicate keys, and
`Entry::UserData(Arc<Mutex<Vec<u8>>>)` is `.file` over the byte buffer. -/
inductive MEntry where
  | dir (children : List (String × MEntry))
  | file (contents : List UInt8)

/-- A directory's children (`tree.rs`, `type Directory<T>`). -/
abbrev Dir := List (String × MEntry)

/-- `HashMap::get` on the association-list model. -/
def lookupD : Dir → String → Option MEntry
  | [], _ => none
  | (k, e) :: rest, key => if k = key then some e else lookupD rest key

/-- `hash_map::Entry::Vacant::insert`: adds a binding for a key that is
absent. -/
def insertD (d : Dir) (k : String) (e : MEntry) : Dir := d ++ [(k, e)]

/-- Replaces the value bound to a key (appending when absent); models
mutating the buffer stored at an existing key. -/
def putD : Dir → String → MEntry → Dir
  | [], k, e => [(k, e)]
  | (k', e') :: rest, k, e =>
    if k' = k then (k, e) :: rest else (k', e') :: putD rest k e

/-- The component walk of `FilesystemTree::with_entry`: descend through
directories; a missing child, or a child that is not a directory, stops
the walk (surfaced as `NotFound` by `with_directory`). -/
def walkDir : Dir → List String → Option Dir
  | d, [] => some d
  | d, c :: cs =>
    match lookupD d c with
    | some (.dir d') => walkDir d' cs
    | _ => none

/-- Applies `f` to the directory at the end of `path`, rebuilding the
spine; models the in-place mutation performed under the tree's lock. -/
def updateAtD (path : List String) (f : Dir → Dir) : Dir → Dir :=
  match path with
  | [] => f
  | c :: cs => fun d =>
    d.map (fun kv =>
      if kv.1 = c then
        (kv.1, match kv.2 with
               | .dir d' => MEntry.dir (updateAtD cs f d')
               | e => e)
      else kv)

/-! ## The memory backend (`memory_fs/mod.rs`) -/

/-- `MemoryFS`: the tree's root directory.  The root is created as a
directory and no operation ever replaces the root entry itself, so it is
stored directly as a `Dir`. -/
structure MemoryFS where
  root : Dir

/-- The empty memory filesystem (`MemoryFS::default()`). -/
def MemoryFS.empty : MemoryFS := ⟨[]⟩

/-- The resolution performed by `FilesystemTree::with_entry` /
`with_directory` (`tree.rs`): normalize-and-relativize, then walk the
`Normal` components.  When the normalized path retains a root — possible
because `make_relative` trims `/` runs before `\` runs, so a leading
`\` followed by `/` survives — the `strip_prefix` call inside the loop
fails on the first component with `invalid_path` (InvalidInput). -/
def treeResolveNames (s : String) : Except ErrorKind (List String) :=
  let cs := components (normalize_and_relativize s.data)
  let names := cs.filterMap
    (fun c => match c with | Comp.normal m => some (String.mk m) | _ => none)
  if cs.head? = some Comp.rootDir ∧ names ≠ [] then .error .invalidInput
  else .ok names

/-- `FilesystemTree::with_directory` resolving the directory at `s`: every
way of not landing on a directory is `NotFound`. -/
def withDirectory (fs : MemoryFS) (s : String) : Except ErrorKind Dir :=
  match treeResolveNames s with
  | .error e => .error e
  | .ok names =>
    match walkDir fs.root names with
    | some d => .ok d
    | none => .error .notFound

/-- `impl From<&Entry<File>> for Metadata` (`memory_fs/entry.rs`). -/
def metaOfEntry : MEntry → Metadata
  | .dir _ => Metadata.directory
  | .file b => Metadata.file b.length

/-- `MemoryFS::with_parent_and_child_name`: `Path::parent` and
`Path::file_name` of the raw path; absence of either is `invalid_path`
(InvalidInput). -/
def parentAndChild (p : String) : Except ErrorKind (String × String) :=
  match parentPath p.data, fileName p.data with
  | some par, some c => .ok (⟨par⟩, ⟨c⟩)
  | _, _ => .error .invalidInput

/-- `MemoryFS::metadata`. -/
def MemoryFS.metadata (fs : MemoryFS) (p : String) : Except ErrorKind Metadata :=
  match parentAndChild p with
  | .error e => .error e
  | .ok (par, c) =>
    match withDirectory fs par with
    | .error e => .error e
    | .ok d =>
      match lookupD d c with
      | some e => .ok (metaOfEntry e)
      | none => .error .notFound

/-- `MemoryFS::create_dir`: inserts a directory under the parent; an
occupied sibling name is `AlreadyExists`. -/
def MemoryFS.create_dir (fs : MemoryFS) (p : String) : Except ErrorKind MemoryFS :=
  match parentAndChild p with
  | .error e => .error e
  | .ok (par, c) =>
    match treeResolveNames par with
    | .error e => .error e
    | .ok names =>
      match walkDir fs.root names with
      | none => .error .notFound
      | some d =>
        match lookupD d c with
        | none => .ok ⟨updateAtD names (fun dd => insertD dd c (MEntry.dir [])) fs.root⟩
        | some _ => .error .alreadyExists

/-- `MemoryFS::read_dir`: the materialized list of the directory's
children, each as leaf name plus synthesized metadata. -/
def MemoryFS.read_dir (fs : MemoryFS) (p : String) : Except ErrorKind (List DirEntry) :=
  match withDirectory fs p with
  | .error e => .error e
  | .ok d => .ok (d.map (fun kv => ⟨kv.1, metaOfEntry kv.2⟩))

/-- A memory-backend `FileHandle` as returned by `open_file_options`: the
resolved location of the locked buffer plus cursor and mode flags.  The
Rust handle holds an `Arc` to the buffer; the buffer stays at its tree
location in every scenario proved here, so the handle records the location
and accesses the buffer through the tree. -/
structure Handle where
  dirNames : List String
  name : String
  pos : Nat
  readMode : Bool
  writeMode : Bool
  deriving DecidableEq, Repr

/-- Overwrites the file stored at `names`/`c` with contents `b`; models
mutating the shared buffer (or the `truncate` clear). -/
def setFileAt (fs : MemoryFS) (names : List String) (c : String) (b : List UInt8) : MemoryFS :=
  ⟨updateAtD names (fun dd => putD dd c (MEntry.file b)) fs.root⟩

/-- `MemoryFS::open_file_options`: resolve parent and leaf; a directory
leaf is `NotFound`; an absent leaf is created when `opts.create` holds and
is `NotFound` otherwise; the handle's modes copy `opts.read`/`opts.write`;
afterwards `opts.truncate` clears the buffer — regardless of the write
mode. -/
def MemoryFS.open_file_options (fs : MemoryFS) (p : String) (opts : OpenOptions) :
    Except ErrorKind (MemoryFS × Handle) :=
  match parentAndChild p with
  | .error e => .error e
  | .ok (par, c) =>
    match treeResolveNames par with
    | .error e => .error e
    | .ok names =>
      match walkDir fs.root names with
      | none => .error .notFound
      | some d =>
        match lookupD d c with
        | some (.dir _) => .error .notFound
        | some (.file _) =>
          let fs2 := if opts.truncate then setFileAt fs names c [] else fs
          .ok (fs2, ⟨names, c, 0, opts.read, opts.write⟩)
        | none =>
          if opts.create then
            let fs1 : MemoryFS := ⟨updateAtD names (fun dd => insertD dd c (MEntry.file [])) fs.root⟩
            let fs2 := if opts.truncate then setFileAt fs1 names c [] else fs1
            .ok (fs2, ⟨names, c, 0, opts.read, opts.write⟩)
          else .error .notFound

/-- `FileSystem::create_file` (`lib.rs`) on the memory backend. -/
def MemoryFS.create_file (fs : MemoryFS) (p : String) : Except ErrorKind (MemoryFS × Handle) :=
  fs.open_file_options p createFileOptions

/-- `FileSystem::open_file` (`lib.rs`) on the memory backend. -/
def MemoryFS.open_file (fs : MemoryFS) (p : String) : Except ErrorKind (MemoryFS × Handle) :=
  fs.open_file_options p OpenOptions.default

/-- The buffer a handle's `Arc` points to, read through its tree location. -/
def handleContents (fs : MemoryFS) (h : Handle) : Option (List UInt8) :=
  match walkDir fs.root h.dirNames with
  | some d =>
    match lookupD d h.name with
    | some (.file b) => some b
    | _ => none
  | none => none

/-- `FileHandle::write` through the tree: the single call `write(buf)`
returns `buf.len()`, so `write_all` makes exactly one call. -/
def MemoryFS.handle_write (fs : MemoryFS) (h : Handle) (buf : List UInt8) :
    Except ErrorKind (MemoryFS × Handle × Nat) :=
  match handleContents fs h with
  | none => .error .notFound
  | some b =>
    match fh_write ⟨b, h.pos, h.readMode, h.writeMode⟩ buf with
    | .error e => .error e
    | .ok (st, n) =>
      .ok (setFileAt fs h.dirNames h.name st.contents, { h with pos := st.pos }, n)

/-- `read_to_end` through the tree. -/
def MemoryFS.handle_read_to_end (fs : MemoryFS) (h : Handle) :
    Except ErrorKind (Handle × List UInt8) :=
  match handleContents fs h with
  | none => .error .notFound
  | some b =>
    match fh_read_to_end ⟨b, h.pos, h.readMode, h.writeMode⟩ with
    | .error e => .error e
    | .ok (st, out) => .ok ({ h with pos := st.pos }, out)

/-- `util::create_dir_all` run against `MemoryFS::create_dir`: walks
`create_dir_all_paths` in order, swallowing `AlreadyExists` and aborting
on any other error.  An erroring `create_dir` leaves the tree unchanged,
matching the source where the callbacks mutate only on success. -/
def runCreateDirAll (fs : MemoryFS) (p : String) : Except ErrorKind MemoryFS :=
  go fs (create_dir_all_paths p.data)
where
  go : MemoryFS → List (List Char) → Except ErrorKind MemoryFS
  | fs, [] => .ok fs
  | fs, q :: qs =>
    match MemoryFS.create_dir fs ⟨q⟩ with
    | .ok fs' => go fs' qs
    | .error .alreadyExists => go fs qs
    | .error _ => .error .notFound

/-! ## The read-only collection (`roc_fs.rs`) -/

/-- One layer of the read-only collection: a filesystem seen through the
operations the union forwards.  Per-layer listings are materialized lists
(entry-level errors inside a layer's iterator are not modelled). -/
structure Layer where
  metadata : String → Except ErrorKind Metadata
  read_dir : String → Except ErrorKind (List DirEntry)

/-- `RocFS::for_each_layer`: first `Ok` wins; a layer's `NotFound` moves
on; any other error propagates; exhaustion is `NotFound`. -/
def forEachLayer {α : Type} (layers : List Layer)
    (f : Layer → Except ErrorKind α) : Except ErrorKind α :=
  match layers with
  | [] => .error .notFound
  | l :: ls =>
    match f l with
    | .ok r => .ok r
    | .error .notFound => forEachLayer ls f
    | .error e => .error e

/-- `RocFS::metadata`. -/
def RocFS.metadata (layers : List Layer) (p : String) : Except ErrorKind Metadata :=
  forEachLayer layers (fun l => l.metadata p)

/-- `RocFS::read_dir`: concatenates the layers' listings in layer order; a
layer's `NotFound` is filtered out as an empty contribution; any other
error aborts the collection. -/
def RocFS.read_dir (layers : List Layer) (p : String) :
    Except ErrorKind (List DirEntry) :=
  match layers with
  | [] => .ok []
  | l :: ls =>
    match l.read_dir p with
    | .ok es =>
      match RocFS.read_dir ls p with
      | .ok rest => .ok (es ++ rest)
      | .error e => .error e
    | .error .notFound => RocFS.read_dir ls p
    | .error e => .error e

/-! ## The ZIP backend (`zip_fs.rs`) -/

/-- An archive entry of the central directory: the exact stored name (as
`by_name` matches it) and the uncompressed size. -/
structure ZipEntry where
  name : String
  size : Nat
  deriving DecidableEq, Repr

/-- `ZipFS::normalize_path`: `make_relative(util::normalize_path(path))` —
note the order, reversed from the tree's `normalize_and_relativize`. -/
def zipNormalize (s : List Char) : List Char :=
  make_relative (normalize_path s)

/-- The synthetic-directory set built by `ZipFS::new`: the root (the empty
path) plus every path `parent_iter` yields for every entry name. -/
def zipDirSet (entries : List ZipEntry) : List (List Comp) :=
  [] :: entries.flatMap (fun e => (parent_iter e.name.data).map components)

/-- Membership in the synthetic-directory set; `HashSet<PathBuf>` compares
paths by their component lists. -/
def zipIsDir (entries : List ZipEntry) (n : List Char) : Bool :=
  (zipDirSet entries).contains (components n)

/-- `ZipFS::metadata`: normalize, then the directory set first; otherwise
a `by_name` file lookup (exact string match on the stored names) reporting
the uncompressed size; `ZipError::FileNotFound` maps to `NotFound`. -/
def ZipFS.metadata (entries : List ZipEntry) (p : String) : Except ErrorKind Metadata :=
  let n := zipNormalize p.data
  if zipIsDir entries n then .ok Metadata.directory
  else
    match entries.find? (fun e => e.name.data == n) with
    | some e => .ok (Metadata.file e.size)
    | none => .error .notFound

/-! ## The physical backend's path resolvers (`physical_fs/path_resolver.rs`) -/

/-- A symlink-free model of the host filesystem for `std::fs::canonicalize`
(an external collaborator of the crate): the set of existing paths, each as
its canonical list of normal components. -/
abbrev Host := List (List String)

/-- The normal components remaining after lexical normalization — the
component list `canonicalize` returns on a symlink-free host. -/
def pathNames (s : List Char) : List String :=
  (normNames s).map (fun n => (⟨n⟩ : String))

/-- Model of `std::fs::canonicalize` on a symlink-free host: lexical
normalization, failing with the host's error (`NotFound`) when the target
does not exist. -/
def canonicalize (host : Host) (s : List Char) : Except ErrorKind (List String) :=
  let ns := pathNames s
  if host.contains ns then .ok ns else .error .notFound

/-- Renders a canonical component list as an absolute path. -/
def renderNames (ns : List String) : List Char :=
  render true (ns.map String.data)

/-- `Path::join`: appends the right-hand path, except that an absolute
right-hand side replaces the left entirely. -/
def joinPath (root : List Char) (q : List Char) : List Char :=
  if headIsSep q then q else root ++ '/' :: q

/-- `SandboxedPathResolver::resolve_path`: canonicalize the root, join it
with `make_relative(path)`, canonicalize the result, and fail
`PermissionDenied` unless the canonical result has the canonical root as a
componentwise prefix (`Path::starts_with`).  Every operation of
`PhysicalFSImpl` begins with `resolve_path(...)?`, so a resolver error is
the operation's error. -/
def SandboxedPathResolver.resolve_path (host : Host) (root : String) (p : String) :
    Except ErrorKind (List String) :=
  match canonicalize host root.data with
  | .error e => .error e
  | .ok rootNs =>
    match canonicalize host (joinPath (renderNames rootNs) (make_relative p.data)) with
    | .error e => .error e
    | .ok ns =>
      if rootNs.isPrefixOf ns then .ok ns
      else .error .permissionDenied

/-- `UnrestrictedPathResolver::resolve_path`: always succeeds with the
joined path, unchecked. -/
def UnrestrictedPathResolver.resolve_path (root : String) (p : String) :
    Except ErrorKind (List Char) :=
  .ok (joinPath root.data (make_relative p.data))

/-! ## Concrete states used by witnesses and counterexamples -/

/-- A small memory filesystem: a directory `a` containing a directory `b`,
and a file `f` with three bytes. -/
def demoFS : MemoryFS := ⟨[("a", .dir [("b", .dir [])]), ("f", .file [1, 2, 3])]⟩

/-- `demoFS` after `f` has been truncated to empty contents. -/
def demoFSCleared : MemoryFS := ⟨[("a", .dir [("b", .dir [])]), ("f", .file [])]⟩

/-- The handle obtained by opening `f` of `demoFS` with
`OpenOptions::default().append(false)` (read mode only). -/
def hDemoTrunc : Handle := ⟨[], "f", 0, true, false⟩

/-- `demoFS` after `create_file "g"` has inserted an empty file `g`. -/
def demoFSg : MemoryFS :=
  ⟨[("a", .dir [("b", .dir [])]), ("f", .file [1, 2, 3]), ("g", .file [])]⟩

/-- The handle obtained from `create_file "g"` on `demoFS`. -/
def hDemoG : Handle := ⟨[], "g", 0, true, true⟩

/-! ## Path normalization lemmas -/

theorem splitSeps_ne_nil (s : List Char) : splitSeps s ≠ [] := by
  cases s with
  | nil => simp [splitSeps]
  | cons c rest =>
    unfold splitSeps
    cases h : splitSeps rest with
    | nil => simp
    | cons p ps =>
      by_cases hc : isSep c = true <;> simp [hc]

theorem splitSeps_append_noSep (a : List Char) (ha : ∀ c ∈ a, isSep c = false) :
    ∀ s p ps, splitSeps s = p :: ps → splitSeps (a ++ s) = (a ++ p) :: ps := by
  induction a with
  | nil => intro s p ps h; simpa using h
  | cons c a' ih =>
    intro s p ps h
    have hc : isSep c = false := ha c (by simp)
    have h' := ih (fun d hd => ha d (by simp [hd])) s p ps h
    show splitSeps (c :: (a' ++ s)) = (c :: (a' ++ p)) :: ps
    unfold splitSeps
    rw [h', hc]
    simp

theorem splitSeps_noSep (a : List Char) (ha : ∀ c ∈ a, isSep c = false) :
    splitSeps a = [a] := by
  have := splitSeps_append_noSep a ha [] [] [] rfl
  simpa using this

theorem splitSeps_sep_cons (c : Char) (s : List Char) (hc : isSep c = true) :
    splitSeps (c :: s) = [] :: splitSeps s := by
  cases h : splitSeps s with
  | nil => exact absurd h (splitSeps_ne_nil s)
  | cons p ps =>
    show (match splitSeps s with
      | [] => [[]]
      | q :: qs => if isSep c = true then [] :: q :: qs else (c :: q) :: qs) =
      [] :: p :: ps
    rw [h, hc]
    simp

theorem joinSlash_append_single (ms : List (List Char)) (m : List Char) :
    joinSlash (ms ++ [m]) = if ms = [] then m else joinSlash ms ++ '/' :: m := by
  induction ms with
  | nil => rfl
  | cons a rest ih =>
    cases rest with
    | nil => rfl
    | cons b rest' =>
      show a ++ '/' :: joinSlash ((b :: rest') ++ [m]) = _
      rw [ih]
      simp [joinSlash]

theorem joinSlash_ne_nil (ns : List (List Char)) (h : ∀ n ∈ ns, GoodName n)
    (hne : ns ≠ []) : joinSlash ns ≠ [] := by
  cases ns with
  | nil => exact absurd rfl hne
  | cons n rest =>
    have hn : n ≠ [] := (h n (by simp)).1
    cases rest with
    | nil => simpa [joinSlash] using hn
    | cons b rest' =>
      show n ++ '/' :: joinSlash (b :: rest') ≠ []
      simp [hn]

theorem headIsSep_joinSlash (ns : List (List Char)) (h : ∀ n ∈ ns, GoodName n) :
    headIsSep (joinSlash ns) = false := by
  cases ns with
  | nil => rfl
  | cons n rest =>
    obtain ⟨hne, -, -, hnosep⟩ := h n (by simp)
    cases n with
    | nil => exact absurd rfl hne
    | cons c n' =>
      have hc : isSep c = false := hnosep c (by simp)
      cases rest with
      | nil => simpa [joinSlash, headIsSep] using hc
      | cons b rest' =>
        show headIsSep ((c :: n') ++ '/' :: joinSlash (b :: rest')) = false
        simpa [headIsSep] using hc

theorem splitSeps_joinSlash (ns : List (List Char))
    (h : ∀ n ∈ ns, ∀ c ∈ n, isSep c = false) (hne : ns ≠ []) :
    splitSeps (joinSlash ns) = ns := by
  induction ns with
  | nil => exact absurd rfl hne
  | cons n rest ih =>
    cases rest with
    | nil => exact splitSeps_noSep n (h n (by simp))
    | cons b rest' =>
      show splitSeps (n ++ '/' :: joinSlash (b :: rest')) = n :: b :: rest'
      have hrest := ih (fun x hx c hc => h x (by simp [hx]) c hc) (by simp)
      have hsep : splitSeps ('/' :: joinSlash (b :: rest')) = [] :: (b :: rest') := by
        rw [splitSeps_sep_cons _ _ (by simp [isSep]), hrest]
      have := splitSeps_append_noSep n (h n (by simp)) ('/' :: joinSlash (b :: rest'))
        [] (b :: rest') hsep
      simpa using this

theorem filterMap_tailComp_good (ns : List (List Char))
    (h : ∀ n ∈ ns, GoodName n) :
    ns.filterMap tailComp = ns.map Comp.normal := by
  induction ns with
  | nil => rfl
  | cons n rest ih =>
    obtain ⟨h1, h2, h3, -⟩ := h n (by simp)
    have ht : tailComp n = some (Comp.normal n) := by
      simp [tailComp, h1, h2, h3]
    simp [List.filterMap_cons, ht, ih (fun x hx => h x (by simp [hx]))]

theorem components_joinSlash (ns : List (List Char)) (h : ∀ n ∈ ns, GoodName n) :
    components (joinSlash ns) = ns.map Comp.normal := by
  cases ns with
  | nil => rfl
  | cons n rest =>
    have hsplit := splitSeps_joinSlash (n :: rest)
      (fun x hx => (h x hx).2.2.2) (by simp)
    obtain ⟨hne, h2, h3, -⟩ := h n (by simp)
    have hjne : joinSlash (n :: rest) ≠ [] := joinSlash_ne_nil _ h (by simp)
    unfold components
    rw [hsplit]
    simp [headComp, hjne, hne, h2, h3,
      filterMap_tailComp_good rest (fun x hx => h x (by simp [hx]))]

theorem foldl_normStep_map_normal (ns : List (List Char)) :
    ∀ st : NormState, (ns.map Comp.normal).foldl normStep st =
      ⟨st.abs, st.names ++ ns⟩ := by
  induction ns with
  | nil => intro st; simp
  | cons n rest ih =>
    intro st
    show (rest.map Comp.normal).foldl normStep (normStep st (Comp.normal n)) = _
    rw [ih]
    simp [normStep]

theorem normalize_path_joinSlash (ns : List (List Char))
    (h : ∀ n ∈ ns, GoodName n) : normalize_path (joinSlash ns) = joinSlash ns := by
  unfold normalize_path normState
  rw [components_joinSlash ns h, foldl_normStep_map_normal]
  rfl

theorem mem_splitSeps_noSep (s : List Char) :
    ∀ p ∈ splitSeps s, ∀ c ∈ p, isSep c = false := by
  induction s with
  | nil =>
    intro p hp c hc
    simp only [splitSeps, List.mem_singleton] at hp
    subst hp
    simp at hc
  | cons a rest ih =>
    intro p hp c hc
    cases hsp : splitSeps rest with
    | nil => exact absurd hsp (splitSeps_ne_nil rest)
    | cons q qs =>
      by_cases ha : isSep a = true
      · rw [splitSeps_sep_cons a rest ha] at hp
        rcases List.mem_cons.mp hp with h1 | h2
        · subst h1; simp at hc
        · exact ih p h2 c hc
      · have ha' : isSep a = false := by simpa using ha
        have hstep : splitSeps (a :: rest) = (a :: q) :: qs := by
          show (match splitSeps rest with
            | [] => [[]]
            | p :: ps => if isSep a = true then [] :: p :: ps else (a :: p) :: ps) =
            (a :: q) :: qs
          rw [hsp, ha']
          simp
        rw [hstep] at hp
        rcases List.mem_cons.mp hp with h1 | h2
        · subst h1
          rcases List.mem_cons.mp hc with h3 | h4
          · subst h3; exact ha'
          · exact ih q (by rw [hsp]; simp) c h4
        · exact ih p (by rw [hsp]; simp [h2]) c hc

theorem tailComp_eq_normal (q n : List Char) (h : tailComp q = some (Comp.normal n)) :
    n = q ∧ q ≠ [] ∧ q ≠ ['.'] ∧ q ≠ ['.', '.'] := by
  unfold tailComp at h
  split_ifs at h with h1 h2 h3
  all_goals simp at h
  exact ⟨h.symm, h1, h2, h3⟩

theorem headComp_eq_normal (p n : List Char) (h : Comp.normal n ∈ headComp p) :
    n = p ∧ p ≠ [] ∧ p ≠ ['.'] ∧ p ≠ ['.', '.'] := by
  unfold headComp at h
  split_ifs at h with h1 h2 h3
  all_goals simp at h
  exact ⟨h, h1, h2, h3⟩

theorem components_eq (s : List Char) (p : List Char) (ps : List (List Char))
    (hsp : splitSeps s = p :: ps) (hs : s ≠ []) :
    components s = if p = [] then Comp.rootDir :: ps.filterMap tailComp
      else headComp p ++ ps.filterMap tailComp := by
  unfold components
  simp only [hsp, if_neg hs]

theorem components_normal_good (s : List Char) :
    ∀ cp ∈ components s, ∀ n, cp = Comp.normal n → GoodName n := by
  intro cp hcp n hn
  subst hn
  cases hsp : splitSeps s with
  | nil => exact absurd hsp (splitSeps_ne_nil s)
  | cons p ps =>
    by_cases hs : s = []
    · subst hs; simp [components, splitSeps] at hcp
    · rw [components_eq s p ps hsp hs] at hcp
      have hmemtail : ∀ x ∈ ps.filterMap tailComp, x = Comp.normal n → GoodName n := by
        intro x hx hxn
        subst hxn
        obtain ⟨q, hq, ht⟩ := List.mem_filterMap.mp hx
        obtain ⟨rfl, hq1, hq2, hq3⟩ := tailComp_eq_normal q n ht
        exact ⟨hq1, hq2, hq3,
          mem_splitSeps_noSep s n (by rw [hsp]; simp [hq])⟩
      by_cases hp : p = []
      · rw [if_pos hp] at hcp
        rcases List.mem_cons.mp hcp with h1 | h2
        · cases h1
        · exact hmemtail _ h2 rfl
      · rw [if_neg hp] at hcp
        rcases List.mem_append.mp hcp with h1 | h2
        · obtain ⟨rfl, hp1, hp2, hp3⟩ := headComp_eq_normal p n h1
          exact ⟨hp1, hp2, hp3,
            mem_splitSeps_noSep s n (by rw [hsp]; simp)⟩
        · exact hmemtail _ h2 rfl

theorem foldl_names_good (comps : List Comp)
    (hc : ∀ cp ∈ comps, ∀ n, cp = Comp.normal n → GoodName n) :
    ∀ st : NormState, (∀ n ∈ st.names, GoodName n) →
      ∀ n ∈ (comps.foldl normStep st).names, GoodName n := by
  induction comps with
  | nil => intro st hst n hn; exact hst n hn
  | cons cp rest ih =>
    intro st hst n hn
    refine ih (fun x hx m hm => hc x (by simp [hx]) m hm) (normStep st cp) ?_ n hn
    intro m hm
    cases cp with
    | rootDir => exact hst m hm
    | curDir => exact hst m hm
    | parentDir => exact hst m ((List.dropLast_sublist _).subset hm)
    | normal q =>
      rcases List.mem_append.mp hm with h1 | h2
      · exact hst m h1
      · rw [List.mem_singleton] at h2
        subst h2
        exact hc (Comp.normal m) (by simp) m rfl

theorem normNames_good (s : List Char) : ∀ n ∈ normNames s, GoodName n :=
  foldl_names_good (components s) (components_normal_good s) ⟨false, []⟩ (by simp)

theorem names_fold_abs (comps : List Comp) :
    ∀ (a b : Bool) (ns : List (List Char)),
      (comps.foldl normStep ⟨a, ns⟩).names = (comps.foldl normStep ⟨b, ns⟩).names := by
  induction comps with
  | nil => intros; rfl
  | cons cp rest ih =>
    intro a b ns
    cases cp with
    | rootDir => rfl
    | curDir => exact ih a b ns
    | parentDir => exact ih a b ns.dropLast
    | normal q => exact ih a b (ns ++ [q])

theorem normNames_sep_cons (c : Char) (s : List Char) (hc : isSep c = true) :
    normNames (c :: s) = normNames s := by
  by_cases hs : s = []
  · subst hs
    show normNames [c] = normNames []
    unfold normNames normState
    have h1 : splitSeps [c] = [[], []] := by
      rw [show [c] = c :: ([] : List Char) from rfl, splitSeps_sep_cons c [] hc]
      rfl
    rw [components_eq [c] [] [[]] h1 (by simp), if_pos rfl]
    simp [tailComp, components, splitSeps, normStep]
  · cases hsp : splitSeps s with
    | nil => exact absurd hsp (splitSeps_ne_nil s)
    | cons p ps =>
      have h1 : splitSeps (c :: s) = [] :: p :: ps := by
        rw [splitSeps_sep_cons c s hc, hsp]
      have hcs : components (c :: s) = Comp.rootDir :: (p :: ps).filterMap tailComp := by
        rw [components_eq (c :: s) [] (p :: ps) h1 (by simp), if_pos rfl]
      have hcomps := components_eq s p ps hsp hs
      unfold normNames normState
      rw [hcs, hcomps, List.filterMap_cons]
      by_cases hp : p = []
      · subst hp
        rw [if_pos rfl]
        rfl
      · rw [if_neg hp]
        by_cases hdot : p = ['.']
        · subst hdot
          rw [show tailComp ['.'] = none from rfl,
              show headComp ['.'] = [Comp.curDir] from rfl]
          exact names_fold_abs _ true false []
        · by_cases hddot : p = ['.', '.']
          · subst hddot
            rw [show tailComp ['.', '.'] = some Comp.parentDir from rfl,
                show headComp ['.', '.'] = [Comp.parentDir] from rfl]
            exact names_fold_abs _ true false []
          · rw [show tailComp p = some (Comp.normal p) by
                  simp [tailComp, hp, hdot, hddot],
                show headComp p = [Comp.normal p] by
                  simp [headComp, hp, hdot, hddot]]
            exact names_fold_abs _ true false [p]

theorem normNames_dropWhile (q : Char → Bool)
    (hq : ∀ c, q c = true → isSep c = true) :
    ∀ s : List Char, normNames (s.dropWhile q) = normNames s := by
  intro s
  induction s with
  | nil => rfl
  | cons c rest ih =>
    by_cases hc : q c = true
    · rw [List.dropWhile_cons_of_pos hc, ih, normNames_sep_cons c rest (hq c hc)]
    · rw [List.dropWhile_cons_of_neg (by simpa using hc)]

theorem make_relative_head_not_sep (s : List Char) (h : headIsSep s = false) :
    make_relative s = s := by
  cases s with
  | nil => rfl
  | cons c rest =>
    have h0 : isSep c = false := by simpa [headIsSep] using h
    simp only [isSep, Bool.or_eq_false_iff, decide_eq_false_iff_not] at h0
    unfold make_relative
    rw [List.dropWhile_cons_of_neg (by simpa using h0.1),
        List.dropWhile_cons_of_neg (by simpa using h0.2)]

theorem no_root_fold_abs (comps : List Comp) (h : Comp.rootDir ∉ comps) :
    ∀ ns, (comps.foldl normStep ⟨false, ns⟩).abs = false := by
  induction comps with
  | nil => intro ns; rfl
  | cons cp rest ih =>
    intro ns
    have hrest : Comp.rootDir ∉ rest := fun hh => h (by simp [hh])
    cases cp with
    | rootDir => exact absurd (by simp) h
    | curDir => exact ih hrest ns
    | parentDir => exact ih hrest ns.dropLast
    | normal q => exact ih hrest (ns ++ [q])

theorem rootDir_not_mem_headComp (p : List Char) : Comp.rootDir ∉ headComp p := by
  unfold headComp
  split_ifs <;> simp

theorem rootDir_not_mem_filterMap_tailComp (ps : List (List Char)) :
    Comp.rootDir ∉ ps.filterMap tailComp := by
  intro h
  obtain ⟨q, hq, ht⟩ := List.mem_filterMap.mp h
  unfold tailComp at ht
  split_ifs at ht <;> simp at ht

theorem components_no_root (s : List Char) (h : headIsSep s = false) :
    Comp.rootDir ∉ components s := by
  cases s with
  | nil => simp [components, splitSeps]
  | cons c rest =>
    have hc : isSep c = false := by simpa [headIsSep] using h
    cases hsp : splitSeps rest with
    | nil => exact absurd hsp (splitSeps_ne_nil rest)
    | cons q qs =>
      have hstep : splitSeps (c :: rest) = (c :: q) :: qs := by
        show (match splitSeps rest with
          | [] => [[]]
          | p :: ps => if isSep c = true then [] :: p :: ps else (c :: p) :: ps) =
          (c :: q) :: qs
        rw [hsp, hc]
        simp
      rw [components_eq (c :: rest) (c :: q) qs hstep (by simp), if_neg (by simp)]
      intro hmem
      rcases List.mem_append.mp hmem with h1 | h2
      · exact rootDir_not_mem_headComp _ h1
      · exact rootDir_not_mem_filterMap_tailComp _ h2

theorem normState_abs_false (s : List Char) (h : headIsSep s = false) :
    (normState s).abs = false :=
  no_root_fold_abs (components s) (components_no_root s h) []

theorem normalize_path_of_head_not_sep (s : List Char) (h : headIsSep s = false) :
    normalize_path s = joinSlash (normNames s) := by
  unfold normalize_path render
  rw [normState_abs_false s h]
  simp [normNames]

theorem normalize_and_relativize_idem (p : List Char)
    (hp : headIsSep (make_relative p) = false) :
    normalize_and_relativize (normalize_and_relativize p) = normalize_and_relativize p := by
  unfold normalize_and_relativize
  rw [normalize_path_of_head_not_sep (make_relative p) hp]
  rw [make_relative_head_not_sep _
    (headIsSep_joinSlash _ (normNames_good (make_relative p)))]
  exact normalize_path_joinSlash _ (normNames_good (make_relative p))

theorem make_relative_render (b : Bool) (ns : List (List Char))
    (h : ∀ n ∈ ns, GoodName n) : make_relative (render b ns) = joinSlash ns := by
  cases b with
  | false => exact make_relative_head_not_sep _ (headIsSep_joinSlash _ h)
  | true =>
    show make_relative ('/' :: joinSlash ns) = joinSlash ns
    unfold make_relative
    rw [List.dropWhile_cons_of_pos (by simp)]
    cases hj : joinSlash ns with
    | nil => rfl
    | cons c t =>
      have hcs : isSep c = false := by
        have hhead := headIsSep_joinSlash ns h
        rw [hj] at hhead
        simpa [headIsSep] using hhead
      simp only [isSep, Bool.or_eq_false_iff, decide_eq_false_iff_not] at hcs
      rw [List.dropWhile_cons_of_neg (by simpa using hcs.1),
          List.dropWhile_cons_of_neg (by simpa using hcs.2)]

theorem zipNormalize_eq (s : List Char) :
    zipNormalize s = joinSlash (normNames s) := by
  unfold zipNormalize
  rw [show normalize_path s = render (normState s).abs (normNames s) from rfl]
  exact make_relative_render _ _ (normNames_good s)

theorem normNames_render (b : Bool) (ns : List (List Char))
    (h : ∀ n ∈ ns, GoodName n) : normNames (render b ns) = ns := by
  cases b with
  | false =>
    show normNames (joinSlash ns) = ns
    unfold normNames normState
    rw [components_joinSlash ns h, foldl_normStep_map_normal]
    simp
  | true =>
    show normNames ('/' :: joinSlash ns) = ns
    rw [normNames_sep_cons '/' _ (by simp [isSep])]
    unfold normNames normState
    rw [components_joinSlash ns h, foldl_normStep_map_normal]
    simp

theorem normNames_make_relative (s : List Char) :
    normNames (make_relative s) = normNames s := by
  unfold make_relative
  rw [normNames_dropWhile _ (fun c hc => by
        simp only [decide_eq_true_eq] at hc
        simp [isSep, hc]) _,
      normNames_dropWhile _ (fun c hc => by
        simp only [decide_eq_true_eq] at hc
        simp [isSep, hc]) s]

theorem zipNormalize_normalize_and_relativize (q : List Char) :
    zipNormalize (normalize_and_relativize q) = zipNormalize q := by
  rw [zipNormalize_eq, zipNormalize_eq]
  rw [show normalize_and_relativize q =
      render (normState (make_relative q)).abs (normNames (make_relative q)) from rfl]
  rw [normNames_render _ _ (normNames_good (make_relative q)), normNames_make_relative]

theorem takeWhile_all (p : Char → Bool) (l : List Char) (h : ∀ c ∈ l, p c = true) :
    l.takeWhile p = l := by
  induction l with
  | nil => rfl
  | cons a t ih =>
    rw [List.takeWhile_cons_of_pos (h a (by simp)), ih (fun c hc => h c (by simp [hc]))]

theorem takeWhile_append_all (p : Char → Bool) (a b : List Char)
    (h : ∀ c ∈ a, p c = true) : (a ++ b).takeWhile p = a ++ b.takeWhile p := by
  induction a with
  | nil => rfl
  | cons x t ih =>
    rw [List.cons_append, List.takeWhile_cons_of_pos (h x (by simp)),
        ih (fun c hc => h c (by simp [hc]))]
    rfl

theorem dropTrailSeps_append_noSep (x m : List Char) (hm : m ≠ [])
    (hnosep : ∀ c ∈ m, isSep c = false) : dropTrailSeps (x ++ m) = x ++ m := by
  cases hrev : m.reverse with
  | nil => exact absurd (by simpa using hrev) hm
  | cons c t =>
    have hc : isSep c = false := hnosep c (by
      have hcm : c ∈ m.reverse := by rw [hrev]; simp
      simpa using hcm)
    have hd : ((x ++ m).reverse).dropWhile isSep = (x ++ m).reverse := by
      rw [List.reverse_append, hrev, List.cons_append,
          List.dropWhile_cons_of_neg (by simp [hc])]
    unfold dropTrailSeps
    rw [hd, List.reverse_reverse]

theorem dropTrailSeps_append_sep (x : List Char) (c : Char) (hc : isSep c = true) :
    dropTrailSeps (x ++ [c]) = dropTrailSeps x := by
  unfold dropTrailSeps
  rw [List.reverse_append, List.reverse_singleton, List.singleton_append,
      List.dropWhile_cons_of_pos (by simp [hc])]

theorem dropTrailSeps_joinSlash (ns : List (List Char)) (h : ∀ n ∈ ns, GoodName n) :
    dropTrailSeps (joinSlash ns) = joinSlash ns := by
  rcases List.eq_nil_or_concat ns with rfl | ⟨ms, m, rfl⟩
  · rfl
  · simp only [List.concat_eq_append] at h ⊢
    obtain ⟨hm1, -, -, hm4⟩ := h m (by simp)
    rw [joinSlash_append_single]
    by_cases hms : ms = []
    · rw [if_pos hms]
      simpa using dropTrailSeps_append_noSep [] m hm1 hm4
    · rw [if_neg hms]
      rw [show joinSlash ms ++ '/' :: m = (joinSlash ms ++ ['/']) ++ m by simp]
      exact dropTrailSeps_append_noSep _ m hm1 hm4

theorem lastPiece_noSep (m : List Char) (hnosep : ∀ c ∈ m, isSep c = false) :
    lastPiece m = m := by
  unfold lastPiece
  rw [takeWhile_all _ m.reverse (fun c hc => by
        simp [hnosep c (by simpa using hc)]),
      List.reverse_reverse]

theorem lastPiece_append (x : List Char) (c : Char) (m : List Char)
    (hcsep : isSep c = true) (hnosep : ∀ d ∈ m, isSep d = false) :
    lastPiece (x ++ c :: m) = m := by
  unfold lastPiece
  rw [List.reverse_append, List.reverse_cons, List.append_assoc,
      takeWhile_append_all _ m.reverse _ (fun d hd => by
        simp [hnosep d (by simpa using hd)]),
      List.singleton_append, List.takeWhile_cons_of_neg (by simp [hcsep])]
  simp

theorem chopFuel_succ (fuel : Nat) (s : List Char) :
    chopFuel (fuel + 1) s =
      if lastPiece (dropTrailSeps s) = ['.'] ∧
          (dropTrailSeps s).take
            ((dropTrailSeps s).length - (lastPiece (dropTrailSeps s)).length) ≠ [] then
        chopFuel fuel ((dropTrailSeps s).take
          ((dropTrailSeps s).length - (lastPiece (dropTrailSeps s)).length))
      else (dropTrailSeps s).take
        ((dropTrailSeps s).length - (lastPiece (dropTrailSeps s)).length) := rfl

theorem chopLastComp_joinSlash (ms : List (List Char)) (m : List Char)
    (h : ∀ n ∈ ms ++ [m], GoodName n) :
    chopLastComp (joinSlash (ms ++ [m])) =
      if ms = [] then [] else joinSlash ms ++ ['/'] := by
  obtain ⟨hm1, hm2, hm3, hm4⟩ := h m (by simp)
  rw [joinSlash_append_single]
  by_cases hc : ms = []
  · rw [if_pos hc, if_pos hc]
    unfold chopLastComp
    obtain ⟨k, hk⟩ : ∃ k, m.length = k + 1 := by
      cases m with
      | nil => exact absurd rfl hm1
      | cons a t => exact ⟨t.length, rfl⟩
    rw [hk, chopFuel_succ]
    rw [show dropTrailSeps m = m from by
          simpa using dropTrailSeps_append_noSep [] m hm1 hm4,
        lastPiece_noSep m hm4]
    rw [if_neg (by simp [hm2])]
    simp
  · rw [if_neg hc, if_neg hc]
    unfold chopLastComp
    obtain ⟨k, hk⟩ : ∃ k, (joinSlash ms ++ '/' :: m).length = k + 1 := by
      refine ⟨(joinSlash ms).length + m.length, ?_⟩
      simp [List.length_append]
      omega
    rw [hk, chopFuel_succ]
    rw [show dropTrailSeps (joinSlash ms ++ '/' :: m) = joinSlash ms ++ '/' :: m from by
          rw [show joinSlash ms ++ '/' :: m = (joinSlash ms ++ ['/']) ++ m by simp]
          exact dropTrailSeps_append_noSep _ m hm1 hm4,
        lastPiece_append _ '/' m (by simp [isSep]) hm4]
    have hr : (joinSlash ms ++ '/' :: m).take ((joinSlash ms ++ '/' :: m).length - m.length) =
        joinSlash ms ++ ['/'] := by
      rw [show joinSlash ms ++ '/' :: m = (joinSlash ms ++ ['/']) ++ m by simp]
      rw [show ((joinSlash ms ++ ['/']) ++ m).length - m.length =
          (joinSlash ms ++ ['/']).length from by simp [List.length_append]; omega]
      exact List.take_left _ _
    rw [hr, if_neg (by simp [hm2])]

theorem parentPath_joinSlash (ms : List (List Char)) (m : List Char)
    (h : ∀ n ∈ ms ++ [m], GoodName n) :
    parentPath (joinSlash (ms ++ [m])) = some (joinSlash ms) := by
  have hgoodms : ∀ n ∈ ms, GoodName n := fun n hn => h n (by simp [hn])
  have hcomp : components (joinSlash (ms ++ [m])) = (ms ++ [m]).map Comp.normal :=
    components_joinSlash _ h
  unfold parentPath
  rw [hcomp]
  rw [if_neg (by
    intro hor
    rcases hor with h1 | h1
    · simp at h1
    · cases hl : ms ++ [m] with
      | nil => simp [hl] at h1
      | cons a t => rw [hl] at h1; simp at h1)]
  rw [chopLastComp_joinSlash ms m h]
  have hhead := headIsSep_joinSlash (ms ++ [m]) h
  by_cases hms : ms = []
  · rw [if_pos hms]
    rw [show dropTrailSeps ([] : List Char) = [] from rfl]
    rw [hms] at hhead ⊢
    simp only [hhead, Bool.false_eq_true, and_false, if_false]
    rfl
  · rw [if_neg hms]
    rw [dropTrailSeps_append_sep (joinSlash ms) '/' (by simp [isSep]),
        dropTrailSeps_joinSlash ms hgoodms]
    have hne := joinSlash_ne_nil ms hgoodms hms
    simp only [hne, false_and, if_false]

theorem fileName_joinSlash (ms : List (List Char)) (m : List Char)
    (h : ∀ n ∈ ms ++ [m], GoodName n) :
    fileName (joinSlash (ms ++ [m])) = some m := by
  unfold fileName
  rw [components_joinSlash _ h]
  simp [List.getLast?_concat]

theorem filterMap_normal_names (ls : List (List Char)) :
    (ls.map Comp.normal).filterMap
      (fun c => match c with | Comp.normal m => some (String.mk m) | _ => none) =
      ls.map (fun n => (⟨n⟩ : String)) := by
  induction ls with
  | nil => rfl
  | cons a t ih => simp [List.filterMap_cons, ih]

theorem treeResolveNames_joinSlash (ns : List (List Char))
    (h : ∀ n ∈ ns, GoodName n) :
    treeResolveNames ⟨joinSlash ns⟩ = .ok (ns.map (fun n => (⟨n⟩ : String))) := by
  have hclean : normalize_and_relativize (joinSlash ns) = joinSlash ns := by
    unfold normalize_and_relativize
    rw [make_relative_head_not_sep _ (headIsSep_joinSlash _ h)]
    exact normalize_path_joinSlash _ h
  unfold treeResolveNames
  simp only [show (String.mk (joinSlash ns)).data = joinSlash ns from rfl, hclean,
    components_joinSlash _ h, filterMap_normal_names]
  rw [if_neg (by
    intro hand
    cases hns : ns with
    | nil => rw [hns] at hand; simp at hand
    | cons a t => rw [hns] at hand; simp at hand)]

theorem walkDir_concat (xs : List String) (x : String) :
    ∀ d dd, walkDir d (xs ++ [x]) = some dd →
      ∃ d', walkDir d xs = some d' ∧ lookupD d' x = some (MEntry.dir dd) := by
  induction xs with
  | nil =>
    intro d dd h
    simp only [List.nil_append] at h
    unfold walkDir at h
    cases hl : lookupD d x with
    | none => rw [hl] at h; simp at h
    | some e =>
      rw [hl] at h
      cases e with
      | file b => simp at h
      | dir d' =>
        simp only [walkDir] at h
        cases h
        exact ⟨d, rfl, hl⟩
  | cons c cs ih =>
    intro d dd h
    simp only [List.cons_append] at h
    unfold walkDir at h
    cases hl : lookupD d c with
    | none => rw [hl] at h; simp at h
    | some e =>
      rw [hl] at h
      cases e with
      | file b => simp at h
      | dir d' =>
        obtain ⟨d'', hwalk, hlk⟩ := ih d' dd h
        refine ⟨d'', ?_, hlk⟩
        unfold walkDir
        rw [hl]
        exact hwalk

/-! ## Tree lemmas -/

theorem lookupD_map_at_key (d : Dir) (c : String) (T : MEntry → MEntry) :
    lookupD (d.map (fun kv => if kv.1 = c then (kv.1, T kv.2) else kv)) c =
      (lookupD d c).map T := by
  induction d with
  | nil => rfl
  | cons kv rest ih =>
    obtain ⟨k, e⟩ := kv
    rw [List.map_cons]
    show lookupD ((if k = c then ((k : String), T e) else (k, e)) ::
        rest.map (fun kv => if kv.1 = c then (kv.1, T kv.2) else kv)) c =
      Option.map T (lookupD ((k, e) :: rest) c)
    by_cases hk : k = c
    · rw [if_pos hk]
      simp [lookupD, hk]
    · rw [if_neg hk]
      simp [lookupD, hk, ih]

theorem walkDir_updateAtD (path : List String) (f : Dir → Dir) :
    ∀ d dd, walkDir d path = some dd →
      walkDir (updateAtD path f d) path = some (f dd) := by
  induction path with
  | nil =>
    intro d dd h
    cases h
    rfl
  | cons c cs ih =>
    intro d dd h
    unfold walkDir at h
    cases hl : lookupD d c with
    | none => rw [hl] at h; simp at h
    | some e =>
      rw [hl] at h
      cases e with
      | file b => simp at h
      | dir d' =>
        have hstep : lookupD (updateAtD (c :: cs) f d) c =
            some (MEntry.dir (updateAtD cs f d')) := by
          have hmk := lookupD_map_at_key d c
            (fun e => match e with
              | MEntry.dir dd => MEntry.dir (updateAtD cs f dd)
              | e => e)
          rw [hl] at hmk
          exact hmk
        show walkDir (updateAtD (c :: cs) f d) (c :: cs) = some (f dd)
        unfold walkDir
        rw [hstep]
        exact ih d' dd h

theorem lookupD_putD (d : Dir) (k : String) (v : MEntry) :
    lookupD (putD d k v) k = some v := by
  induction d with
  | nil => simp [putD, lookupD]
  | cons kv rest ih =>
    obtain ⟨k', e'⟩ := kv
    by_cases h : k' = k <;> simp [putD, lookupD, h, ih]

theorem lookupD_insertD_self (d : Dir) (k : String) (v : MEntry)
    (h : lookupD d k = none) : lookupD (insertD d k v) k = some v := by
  induction d with
  | nil => simp [insertD, lookupD]
  | cons kv rest ih =>
    obtain ⟨k', e'⟩ := kv
    by_cases hk : k' = k
    · simp [lookupD, hk] at h
    · simp only [lookupD, hk, if_false] at h
      simpa [insertD, lookupD, hk] using ih h

/-- Everything a successful `open_file_options` guarantees: the handle's
cursor and modes, the location facts needed to reopen the same file, and
the buffer now stored there (empty when `truncate` was requested). -/
theorem open_ok_spec (fs : MemoryFS) (p : String) (opts : OpenOptions)
    (fs2 : MemoryFS) (h : Handle)
    (hopen : MemoryFS.open_file_options fs p opts = .ok (fs2, h)) :
    ∃ par d0 b0,
      parentAndChild p = .ok (par, h.name) ∧
      treeResolveNames par = .ok h.dirNames ∧
      walkDir fs2.root h.dirNames = some d0 ∧
      lookupD d0 h.name = some (.file b0) ∧
      (opts.truncate = true → b0 = []) ∧
      h.pos = 0 ∧ h.readMode = opts.read ∧ h.writeMode = opts.write := by
  unfold MemoryFS.open_file_options at hopen
  split at hopen
  · simp at hopen
  rename_i par c hpc
  split at hopen
  · simp at hopen
  rename_i names hrs
  split at hopen
  · simp at hopen
  rename_i d hwd
  split at hopen
  · simp at hopen
  case _ b hlk =>
    by_cases ht : opts.truncate = true
    · simp only [ht, if_true] at hopen
      cases hopen
      refine ⟨par, putD d c (MEntry.file []), [], hpc, hrs, ?_,
        lookupD_putD .., fun _ => rfl, rfl, rfl, rfl⟩
      exact walkDir_updateAtD names _ fs.root d hwd
    · simp only [ht, if_false] at hopen
      cases hopen
      exact ⟨par, d, b, hpc, hrs, hwd, hlk, fun hcc => absurd hcc ht, rfl, rfl, rfl⟩
  case _ hlk =>
    by_cases hcr : opts.create = true
    · simp only [hcr, if_true] at hopen
      have hwd1 : walkDir (updateAtD names (fun dd => insertD dd c (MEntry.file [])) fs.root)
          names = some (insertD d c (MEntry.file [])) :=
        walkDir_updateAtD names _ fs.root d hwd
      by_cases ht : opts.truncate = true
      · simp only [ht, if_true] at hopen
        cases hopen
        refine ⟨par, putD (insertD d c (MEntry.file [])) c (MEntry.file []), [],
          hpc, hrs, ?_, lookupD_putD .., fun _ => rfl, rfl, rfl, rfl⟩
        exact walkDir_updateAtD names _ _ _ hwd1
      · simp only [ht, if_false] at hopen
        cases hopen
        exact ⟨par, insertD d c (MEntry.file []), [], hpc, hrs, hwd1,
          lookupD_insertD_self d c _ hlk, fun hcc => absurd hcc ht, rfl, rfl, rfl⟩
    · simp only [hcr, if_false] at hopen
      simp at hopen

/-! ## Theorems -/

/-- C1: the generic `util::create_dir_all` walks `parent_iter` without
reversing it, so `create_dir` is invoked deepest-ancestor-first, not
root-downward.  On `/some/directory/somewhere/` the call sequence is
`["some/directory", "some", "some/directory/somewhere"]`, and running it
against an empty memory filesystem aborts with `NotFound` (the first call's
parent is missing), where the claim's root-downward order would succeed. -/
theorem create_dir_all_calls_deepest_ancestor_first :
    create_dir_all_paths "/some/directory/somewhere/".data =
      ["some/directory".data, "some".data, "some/directory/somewhere".data] ∧
    runCreateDirAll MemoryFS.empty "/some/directory/somewhere/" = .error .notFound :=
  ⟨by decide, rfl⟩

/-- C2: `FileHandle::write` computes everything the claim describes —
clamped start position, extension, overwrite, returned count — but never
updates `self.pos`: after writing two bytes the cursor is still `0` (the
claim requires `2`), so a second write through the same handle overwrites
the first instead of appending after it. -/
theorem file_handle_write_leaves_cursor_unchanged :
    fh_write ⟨[], 0, false, true⟩ [97, 98] = .ok (⟨[97, 98], 0, false, true⟩, 2) ∧
    fh_write ⟨[97, 98], 0, false, true⟩ [99, 100] =
      .ok (⟨[99, 100], 0, false, true⟩, 2) := by
  decide

/-- C3 counterexample: on the memory backend, `metadata` with any spelling
of the root (`""`, `"."`, `"/"`) fails with `InvalidInput` instead of
succeeding with directory metadata: `with_parent_and_child_name` cannot
split the root into a parent and a file name. -/
theorem memory_root_metadata_fails_invalid_input :
    MemoryFS.metadata demoFS "" = .error .invalidInput ∧
    MemoryFS.metadata demoFS "." = .error .invalidInput ∧
    MemoryFS.metadata demoFS "/" = .error .invalidInput := by
  decide

/-- C3 amended: the root directory always exists structurally — the memory
backend's `read_dir` succeeds on every root spelling and lists the root's
children, and the ZIP backend's `metadata` reports a directory on every
root spelling — but the memory backend's `metadata` (and hence `exists`)
fails with `InvalidInput` on every root spelling. -/
theorem root_exists_structurally (fs : MemoryFS) (entries : List ZipEntry) :
    MemoryFS.read_dir fs "" = .ok (fs.root.map (fun kv => ⟨kv.1, metaOfEntry kv.2⟩)) ∧
    MemoryFS.read_dir fs "." = .ok (fs.root.map (fun kv => ⟨kv.1, metaOfEntry kv.2⟩)) ∧
    MemoryFS.read_dir fs "/" = .ok (fs.root.map (fun kv => ⟨kv.1, metaOfEntry kv.2⟩)) ∧
    ZipFS.metadata entries "" = .ok Metadata.directory ∧
    ZipFS.metadata entries "." = .ok Metadata.directory ∧
    ZipFS.metadata entries "/" = .ok Metadata.directory ∧
    MemoryFS.metadata fs "" = .error .invalidInput ∧
    MemoryFS.metadata fs "." = .error .invalidInput ∧
    MemoryFS.metadata fs "/" = .error .invalidInput :=
  ⟨rfl, rfl, rfl, rfl, rfl, rfl, rfl, rfl, rfl⟩

/-- C4 counterexample: a leading backslash followed by a slash defeats
`make_relative` (it trims `/` runs before `\` runs), so
`normalize(make_relative("\/a")) = "/a"` keeps its root and the memory
backend's `read_dir` fails `InvalidInput` at `"\/a"` while it succeeds at
`normalize(make_relative("\/a"))` — the outcomes differ. -/
theorem read_dir_differs_on_backslash_slash_mix :
    normalize_and_relativizeS "\\/a" = "/a" ∧
    MemoryFS.read_dir demoFS "\\/a" = .error .invalidInput ∧
    MemoryFS.read_dir demoFS (normalize_and_relativizeS "\\/a") =
      .ok [⟨"b", Metadata.directory⟩] := by
  decide

/-- C4 amended: the outcome is invariant under replacing the path with
`normalize(make_relative(p))` provided `make_relative(p)` does not itself
begin with a separator (every leading mix of `/`, `\`, `.`, `..` except a
backslash run followed by further separators satisfies this): shown for
the memory backend's tree-walking `read_dir`; for the ZIP backend's
`metadata`, which re-normalizes internally, the outcome is invariant for
every path. -/
theorem outcome_invariant_under_normalization (fs : MemoryFS) (p : String)
    (hp : headIsSep (make_relative p.data) = false) :
    MemoryFS.read_dir fs p =
      MemoryFS.read_dir fs ⟨normalize_and_relativize p.data⟩ ∧
    ∀ (entries : List ZipEntry) (q : String),
      ZipFS.metadata entries q =
        ZipFS.metadata entries ⟨normalize_and_relativize q.data⟩ := by
  constructor
  · have hres : treeResolveNames ⟨normalize_and_relativize p.data⟩ =
        treeResolveNames p := by
      unfold treeResolveNames
      rw [show (String.mk (normalize_and_relativize p.data)).data =
          normalize_and_relativize p.data from rfl]
      rw [normalize_and_relativize_idem p.data hp]
    unfold MemoryFS.read_dir withDirectory
    rw [hres]
  · intro entries q
    unfold ZipFS.metadata
    rw [show (String.mk (normalize_and_relativize q.data)).data =
        normalize_and_relativize q.data from rfl]
    rw [zipNormalize_normalize_and_relativize q.data]

/-- C4 witness: the invariance instantiated at `demoFS` with the
junk-prefixed path `./x/../a`, and at a one-entry archive with `/a/./`. -/
theorem outcome_invariant_witness :
    MemoryFS.read_dir demoFS "./x/../a" =
      MemoryFS.read_dir demoFS ⟨normalize_and_relativize "./x/../a".data⟩ ∧
    ZipFS.metadata [(⟨"a", 5⟩ : ZipEntry)] "/a/./" =
      ZipFS.metadata [(⟨"a", 5⟩ : ZipEntry)] ⟨normalize_and_relativize "/a/./".data⟩ :=
  ⟨(outcome_invariant_under_normalization demoFS "./x/../a" (by decide)).1,
   (outcome_invariant_under_normalization demoFS "./x/../a" (by decide)).2
     [⟨"a", 5⟩] "/a/./"⟩

/-- C5 counterexample: on the read-only union with no layer answering,
`read_dir` succeeds with an empty listing while `metadata` fails
`NotFound`, so `read_dir(p)` can succeed where `metadata(p)` does not
report a directory. -/
theorem roc_read_dir_ok_where_metadata_not_found :
    RocFS.read_dir ([] : List Layer) "x" = .ok [] ∧
    RocFS.metadata ([] : List Layer) "x" = .error .notFound :=
  ⟨rfl, rfl⟩

/-- C6 counterexample: with the sandbox rooted at an existing `/r` and the
escaping path `../x` whose target `/x` does not exist on the host, the
second canonicalization fails first and the resolver returns the host's
`NotFound`, not `PermissionDenied` — even though the path escapes the root
(its canonical components `["x"]` do not extend `["r"]`). -/
theorem sandbox_escape_to_missing_target_not_found :
    SandboxedPathResolver.resolve_path [["r"]] "/r" "../x" = .error .notFound ∧
    pathNames (joinPath (renderNames ["r"]) (make_relative "../x".data)) = ["x"] ∧
    (["r"] : List String).isPrefixOf ["x"] = false := by
  decide

/-- C7: `OpenOptions::create(b)` assigns the literal `true` to the
`create` field regardless of `b`: `create(false)` on the default options
yields `create = true`, contradicting the claim that the field equals `b`
(the `b = true` half and the `false` default hold). -/
theorem open_options_create_false_still_sets_create :
    (OpenOptions.default.setCreate false).create = true ∧
    OpenOptions.default.create = false ∧
    (OpenOptions.default.setCreate true).create = true ∧
    (OpenOptions.default.setCreate true).write = true := by
  decide

/-- C9: on the memory backend, after `create_file(p)` succeeds with a
handle, writing `bytes` through the handle succeeds returning
`bytes.length`, reopening `p` with `open_file` succeeds, and reading to the
end yields exactly `bytes`. -/
theorem memory_create_write_reopen_roundtrip (fs fs2 : MemoryFS) (p : String)
    (h : Handle) (bytes : List UInt8)
    (hcreate : MemoryFS.create_file fs p = .ok (fs2, h)) :
    ∃ fs3 : MemoryFS,
      MemoryFS.handle_write fs2 h bytes = .ok (fs3, h, bytes.length) ∧
      MemoryFS.open_file fs3 p = .ok (fs3, ⟨h.dirNames, h.name, 0, true, false⟩) ∧
      MemoryFS.handle_read_to_end fs3 ⟨h.dirNames, h.name, 0, true, false⟩ =
        .ok (⟨h.dirNames, h.name, bytes.length, true, false⟩, bytes) := by
  obtain ⟨par, d0, b0, hpc, hrs, hwd, hlk, htr, hpos, hr, hw⟩ :=
    open_ok_spec fs p createFileOptions fs2 h hcreate
  have hb : b0 = [] := htr rfl
  subst hb
  have hwT : h.writeMode = true := hw
  have hrT : h.readMode = true := hr
  have hc2 : handleContents fs2 h = some [] := by
    simp only [handleContents, hwd, hlk]
  have hwd3 : walkDir (setFileAt fs2 h.dirNames h.name bytes).root h.dirNames =
      some (putD d0 h.name (MEntry.file bytes)) :=
    walkDir_updateAtD h.dirNames _ fs2.root d0 hwd
  have hlk3 : lookupD (putD d0 h.name (MEntry.file bytes)) h.name =
      some (MEntry.file bytes) := lookupD_putD ..
  refine ⟨setFileAt fs2 h.dirNames h.name bytes, ?_, ?_, ?_⟩
  · simp only [MemoryFS.handle_write, hc2, fh_write, hwT, hpos, Bool.not_true,
      Bool.false_eq_true, if_false, List.length_nil, Nat.min_self, List.take_nil,
      List.drop_nil, List.append_nil, List.nil_append]
    rw [← hpos, ← hwT]
  · simp only [MemoryFS.open_file, MemoryFS.open_file_options, hpc, hrs, hwd3, hlk3]
    rfl
  · have hc3 : handleContents (setFileAt fs2 h.dirNames h.name bytes)
        ⟨h.dirNames, h.name, 0, true, false⟩ = some bytes := by
      simp only [handleContents, hwd3, hlk3]
    simp only [MemoryFS.handle_read_to_end, hc3, fh_read_to_end, Bool.not_true,
      Bool.false_eq_true, if_false, Nat.zero_min, List.drop_zero, Nat.zero_add]

/-- C9 witness: the round trip instantiated at `demoFS`, the path `g`, and
the bytes `[7, 8]`. -/
theorem memory_roundtrip_witness :
    ∃ fs3 : MemoryFS,
      MemoryFS.handle_write demoFSg hDemoG [7, 8] =
        .ok (fs3, hDemoG, ([7, 8] : List UInt8).length) ∧
      MemoryFS.open_file fs3 "g" = .ok (fs3, ⟨hDemoG.dirNames, hDemoG.name, 0, true, false⟩) ∧
      MemoryFS.handle_read_to_end fs3 ⟨hDemoG.dirNames, hDemoG.name, 0, true, false⟩ =
        .ok (⟨hDemoG.dirNames, hDemoG.name, ([7, 8] : List UInt8).length, true, false⟩, [7, 8]) :=
  memory_create_write_reopen_roundtrip demoFS demoFSg "g" hDemoG [7, 8] rfl

/-- C10: `open_file_options` clears the contents whenever `opts.truncate`
is set, independent of the write mode, and
`OpenOptions::default().append(false)` produces exactly such options —
`truncate = true` with `write = false` — so an open permitting no writes
can erase the file. -/
theorem truncate_clears_contents_without_write_mode (fs : MemoryFS) (p : String)
    (opts : OpenOptions) (fs2 : MemoryFS) (h : Handle)
    (ht : opts.truncate = true)
    (hopen : MemoryFS.open_file_options fs p opts = .ok (fs2, h)) :
    handleContents fs2 h = some [] ∧ h.writeMode = opts.write ∧
    (OpenOptions.default.setAppend false).truncate = true ∧
    (OpenOptions.default.setAppend false).write = false := by
  obtain ⟨par, d0, b0, hpc, hrs, hwd, hlk, htr, hpos, hr, hw⟩ :=
    open_ok_spec fs p opts fs2 h hopen
  have hb : b0 = [] := htr ht
  subst hb
  refine ⟨?_, hw, rfl, rfl⟩
  simp only [handleContents, hwd, hlk]

/-- C10 witness: opening `f` of `demoFS` with
`OpenOptions::default().append(false)` — read-only from the handle's point
of view — leaves the file's contents empty. -/
theorem truncate_clears_contents_witness :
    handleContents demoFSCleared hDemoTrunc = some [] ∧
    hDemoTrunc.writeMode = (OpenOptions.default.setAppend false).write ∧
    (OpenOptions.default.setAppend false).truncate = true ∧
    (OpenOptions.default.setAppend false).write = false :=
  truncate_clears_contents_without_write_mode demoFS "f"
    (OpenOptions.default.setAppend false) demoFSCleared hDemoTrunc rfl rfl

/-- C8 counterexample: in an archive holding a file entry `a` of size `5`
together with an entry `a/b`, the name `a` is also a synthetic directory,
and `metadata("a")` reports directory metadata with `len = 0`, not the
uncompressed size `5` the claim requires for every entry. -/
theorem zip_entry_shadowed_by_synthetic_directory :
    ZipFS.metadata [⟨"a", 5⟩, ⟨"a/b", 1⟩] "a" = .ok Metadata.directory ∧
    Metadata.directory.len = 0 := by
  decide

/-- C5 amended: on the memory backend, for every path given as a
normalized relative path with at least one component (a nonempty `/`-join
of normal names), `read_dir(p)` succeeds only when `metadata(p)` succeeds
and reports a directory.  (The union and the root spellings violate the
unrestricted claim; see the counterexample and C3.) -/
theorem memory_read_dir_implies_directory_metadata (fs : MemoryFS)
    (ms : List (List Char)) (m : List Char) (l : List DirEntry)
    (hgood : ∀ n ∈ ms ++ [m], GoodName n)
    (hrd : MemoryFS.read_dir fs ⟨joinSlash (ms ++ [m])⟩ = .ok l) :
    MemoryFS.metadata fs ⟨joinSlash (ms ++ [m])⟩ = .ok Metadata.directory := by
  have hgoodms : ∀ n ∈ ms, GoodName n := fun n hn => hgood n (by simp [hn])
  have hres := treeResolveNames_joinSlash (ms ++ [m]) hgood
  simp only [MemoryFS.read_dir, withDirectory, hres] at hrd
  cases hwk : walkDir fs.root ((ms ++ [m]).map (fun n => (⟨n⟩ : String))) with
  | none => rw [hwk] at hrd; simp at hrd
  | some d =>
    rw [show (ms ++ [m]).map (fun n => (⟨n⟩ : String)) =
        ms.map (fun n => (⟨n⟩ : String)) ++ [⟨m⟩] by simp] at hwk
    obtain ⟨d', hwk', hlk⟩ := walkDir_concat _ _ fs.root d hwk
    simp only [MemoryFS.metadata, parentAndChild,
      show (String.mk (joinSlash (ms ++ [m]))).data = joinSlash (ms ++ [m]) from rfl,
      parentPath_joinSlash ms m hgood, fileName_joinSlash ms m hgood,
      withDirectory, treeResolveNames_joinSlash ms hgoodms, hwk', hlk, metaOfEntry]

/-- C5 witness: the implication instantiated at `demoFS` and the one-component
path `a`, whose listing succeeds. -/
theorem memory_read_dir_metadata_witness :
    MemoryFS.metadata demoFS ⟨joinSlash ([] ++ ["a".data])⟩ = .ok Metadata.directory :=
  memory_read_dir_implies_directory_metadata demoFS [] "a".data
    [⟨"b", Metadata.directory⟩] (by decide) (by decide)

/-- C6 amended: the sandboxed resolver fails `PermissionDenied` whenever
both canonicalizations succeed and the canonical result does not extend
the canonical root (every backend operation begins with `resolve_path(..)?`,
so this is the operation's error); when a canonicalization fails — e.g. the
escaped target does not exist — the host's own error is returned instead.
The unrestricted resolver always succeeds with the joined path, hence
never yields `PermissionDenied`. -/
theorem sandbox_denies_canonical_escapes (host : Host) (root p : String)
    (rootNs ns : List String)
    (h1 : canonicalize host root.data = .ok rootNs)
    (h2 : canonicalize host (joinPath (renderNames rootNs) (make_relative p.data)) = .ok ns)
    (h3 : rootNs.isPrefixOf ns = false) :
    SandboxedPathResolver.resolve_path host root p = .error .permissionDenied ∧
    UnrestrictedPathResolver.resolve_path root p =
      .ok (joinPath root.data (make_relative p.data)) := by
  constructor
  · simp only [SandboxedPathResolver.resolve_path, h1, h2, h3, Bool.false_eq_true,
      if_false]
  · rfl

/-- C6 witness: a host carrying `/r` and `/x`, the sandbox rooted at `/r`,
and the escaping path `../x`. -/
theorem sandbox_denies_witness :
    SandboxedPathResolver.resolve_path [["r"], ["x"]] "/r" "../x" =
      .error .permissionDenied ∧
    UnrestrictedPathResolver.resolve_path "/r" "../x" =
      .ok (joinPath "/r".data (make_relative "../x".data)) :=
  sandbox_denies_canonical_escapes [["r"], ["x"]] "/r" "../x" ["r"] ["x"]
    (by decide) (by decide) (by decide)

/-- C8 amended: `metadata` checks the synthetic-directory set first and
reports directory metadata whenever the normalized path is present;
otherwise it performs the `by_name` file lookup, and it reports `len`
equal to the archive's uncompressed size for an entry whose stored name is
already normalized, is not also a synthetic directory implied by the entry
list, and is the entry `by_name` finds for that name. -/
theorem zip_metadata_directory_first_then_by_name (entries : List ZipEntry)
    (e : ZipEntry)
    (hn : zipNormalize e.name.data = e.name.data)
    (hnd : zipIsDir entries e.name.data = false)
    (hfind : entries.find? (fun x => x.name.data == e.name.data) = some e) :
    ZipFS.metadata entries e.name = .ok (Metadata.file e.size) ∧
    ∀ q : String, zipIsDir entries (zipNormalize q.data) = true →
      ZipFS.metadata entries q = .ok Metadata.directory := by
  constructor
  · simp only [ZipFS.metadata, hn, hnd, Bool.false_eq_true, if_false, hfind]
  · intro q hq
    simp only [ZipFS.metadata, hq, if_true]

/-- C8 witness: a one-entry archive reports the entry's size, and a file
below `d` makes `metadata("d")` report a directory. -/
theorem zip_metadata_witness :
    ZipFS.metadata [(⟨"z", 7⟩ : ZipEntry)] "z" = .ok (Metadata.file 7) ∧
    ZipFS.metadata [(⟨"d/x", 3⟩ : ZipEntry)] "d" = .ok Metadata.directory :=
  ⟨(zip_metadata_directory_first_then_by_name [⟨"z", 7⟩] ⟨"z", 7⟩
      (by decide) (by decide) (by decide)).1,
   (zip_metadata_directory_first_then_by_name [⟨"d/x", 3⟩] ⟨"d/x", 3⟩
      (by decide) (by decide) (by decide)).2 "d" (by decide)⟩

end VirtualFs
